import Mathlib

/-!
# Verification of the `flexible_schema` validation-and-alignment engine

This file is a shallow embedding, in Lean 4, of the core of the
`flexible_schema` Python package:

* the column/field model (`fields.py`): `Nullability`, the `Column`
  constructor with its `nullable` setter/getter and post-construction
  freezing behaviour;
* the schema declaration and the backend-generic validation and alignment
  algorithms (`base.py`): `required_columns`, `optional_columns`, `columns`,
  `_disallowed_extra_cols`, `_missing_req_cols`, `_mistyped_cols`,
  `_validate_schema`, `_validate_table`, `validate`, `_align_col_order`,
  `_cast_raw_table`, `align`;
* the dictionary-like record behaviour installed by `SchemaMeta.__new__`
  (`new_init`, `to_dict`, `keys`).

Raw schemas are embedded as association lists `List (String × τ)` from
column names to backend raw types, and raw tables as association lists
`List (String × ν)` from column names to column payloads; a `Backend τ ν`
bundles the two operations of the backend adapter that the algorithms
need on values (reporting a value's raw type, and casting a value to a
raw type).  All definitions are computable and mirror the Python control
flow; exceptions are embedded as explicit error results.
-/

deriving instance DecidableEq for Except

namespace FlexibleSchema

/-! ## The column model (`fields.py`, with the `columns.py` variant) -/

/-- `Nullability` enum from `fields.py` / `columns.py`: NONE, SOME, ALL. -/
inductive Nullability where
  | NONE
  | SOME
  | ALL
deriving DecidableEq, Repr

/-- The value passed for the `nullable` argument of `Column.__init__` /
the `nullable` property setter: a bool, a string token, a `Nullability`
enum value, or Python `None` (here `unset`). -/
inductive NullableArg where
  | ofBool (b : Bool)
  | ofStr (s : String)
  | ofEnum (n : Nullability)
  | unset
deriving DecidableEq, Repr

/-- The `nullable` property setter of `fields.Column` (the module `base.py`
actually imports), run when the column is not frozen.  Returns the stored
`_nullable` field, or an error for the `TypeError` branch.
Note the `bool` case: `True ↦ Nullability.SOME`, `False ↦ Nullability.NONE`. -/
def fieldsSetNullable : NullableArg → Except Unit (Option Nullability)
  | .ofBool b => .ok (some (if b then .SOME else .NONE))
  | .ofStr s =>
      if s = "none" then .ok (some .NONE)
      else if s = "some" then .ok (some .SOME)
      else if s = "all" then .ok (some .ALL)
      else .error ()
  | .ofEnum n => .ok (some n)
  | .unset => .ok none

/-- The `nullable` property setter of `columns.Column` (the parallel,
doctested implementation in `columns.py`).  It differs from
`fieldsSetNullable` in exactly one branch: `True ↦ Nullability.ALL`. -/
def columnsSetNullable : NullableArg → Except Unit (Option Nullability)
  | .ofBool b => .ok (some (if b then .ALL else .NONE))
  | .ofStr s =>
      if s = "none" then .ok (some .NONE)
      else if s = "some" then .ok (some .SOME)
      else if s = "all" then .ok (some .ALL)
      else .error ()
  | .ofEnum n => .ok (some n)
  | .unset => .ok none

/-- The attribute state of a `fields.Column` object: `dtype`, `default`,
`name`, `_is_optional`, `_nullable` and `_frozen`.  `τ` is the type of
logical dtypes, `ν` the type of default values. -/
structure ColumnState (τ ν : Type) where
  dtype : τ
  default : Option ν
  name : Option String
  optionalFlag : Bool
  nullableRaw : Option Nullability
  frozen : Bool
deriving DecidableEq, Repr

/-- `Column.has_default` property. -/
def ColumnState.hasDefault (c : ColumnState τ ν) : Bool := c.default.isSome

/-- The `nullable` property getter of `fields.Column`: derived tier when
`_nullable` is unset (optional-with-default → SOME, optional-without →
ALL, required → SOME), else the stored value. -/
def ColumnState.nullable (c : ColumnState τ ν) : Nullability :=
  match c.nullableRaw with
  | some n => n
  | none =>
      if c.optionalFlag then (if c.hasDefault then .SOME else .ALL) else .SOME

/-- The two exception kinds `fields.Column.__init__` can raise. -/
inductive ColumnInitError where
  | valueError
  | typeError
deriving DecidableEq, Repr

/-- `fields.Column.__init__(dtype, default, nullable, name, is_optional)`:
sets the attributes, raises `ValueError` when a required column carries a
default, runs the `nullable` setter (which may raise `TypeError`), and
finally freezes the column. -/
def mkColumn (dtype : τ) (default : Option ν) (nullable : NullableArg)
    (name : Option String) (optionalFlag : Bool) :
    Except ColumnInitError (ColumnState τ ν) :=
  if !optionalFlag && default.isSome then
    .error .valueError
  else
    match fieldsSetNullable nullable with
    | .error _ => .error .typeError
    | .ok nr => .ok ⟨dtype, default, name, optionalFlag, nr, true⟩

/-- Result of a Python attribute assignment on an already-constructed
column: either an exception was raised, or the object changed. -/
inductive SetAttrResult (α : Type) where
  | raised
  | changed (a : α)
deriving DecidableEq, Repr

/-- Assigning `col.nullable = v` after construction: the `fields.Column`
setter checks `self._frozen` and raises `AttributeError`; if not frozen it
runs the setter body (`TypeError` is also modelled as `raised`). -/
def setNullableAfterInit (c : ColumnState τ ν) (v : NullableArg) :
    SetAttrResult (ColumnState τ ν) :=
  if c.frozen then .raised
  else
    match fieldsSetNullable v with
    | .error _ => .raised
    | .ok nr => .changed { c with nullableRaw := nr }

/-- Assigning `col.is_optional = b` after construction: `is_optional` is a
read-only property of `fields.Column` (no setter), so the assignment
raises `AttributeError`. -/
def setOptionalAfterInit (_c : ColumnState τ ν) (_b : Bool) :
    SetAttrResult (ColumnState τ ν) :=
  .raised

/-- Assigning `col.dtype = t` after construction: `dtype` is a plain
instance attribute of `fields.Column` (no property and no freeze guard),
so the assignment succeeds and mutates the column. -/
def setDtypeAfterInit (c : ColumnState τ ν) (t : τ) :
    SetAttrResult (ColumnState τ ν) :=
  .changed { c with dtype := t }

/-! ## Schema declarations and raw schemas (`base.py`) -/

/-- One dataclass field of a `Schema` subclass, as the engine sees it: its
name, its backend-mapped raw type (`cls.<name>_dtype`, computed once by
`SchemaMeta.__new__` via `map_type`), and whether its annotation is
optional (`Schema._is_optional`). -/
structure FieldDecl (τ : Type) where
  name : String
  dtype : τ
  optional : Bool
deriving DecidableEq, Repr

/-- A schema declaration: the ordered dataclass fields plus the
`allow_extra_columns` class flag. -/
structure SchemaDecl (τ : Type) where
  fields : List (FieldDecl τ)
  allowExtra : Bool
deriving DecidableEq, Repr

/-- `Schema.required_columns()`: names of non-optional fields, in
declaration order. -/
def requiredColumnsD (D : SchemaDecl τ) : List String :=
  (D.fields.filter (fun f => !f.optional)).map FieldDecl.name

/-- `Schema.optional_columns()`: names of optional fields, in declaration
order. -/
def optionalColumnsD (D : SchemaDecl τ) : List String :=
  (D.fields.filter (fun f => f.optional)).map FieldDecl.name

/-- `Schema.columns()`: required columns then optional columns. -/
def columnsD (D : SchemaDecl τ) : List String :=
  requiredColumnsD D ++ optionalColumnsD D

/-- `Schema.column_type(col)` (`getattr(cls, f"{col}_dtype")`): the mapped
raw type of the field named `col`. -/
def columnTypeD (D : SchemaDecl τ) (col : String) : Option τ :=
  (D.fields.find? (fun f => f.name = col)).map FieldDecl.dtype

/-- A raw schema: an ordered map from column names to backend raw types.
`_raw_schema_cols` is `rawSchemaCols`, `_raw_schema_col_type` is
`rawSchemaColType`. -/
abbrev RawSchema (τ : Type) := List (String × τ)

/-- `_raw_schema_cols(schema)`. -/
def rawSchemaCols (R : RawSchema τ) : List String :=
  R.map Prod.fst

/-- `_raw_schema_col_type(schema, col)`: type of the (first) column named
`col`. -/
def rawSchemaColType (R : RawSchema τ) (col : String) : Option τ :=
  (R.find? (fun p => p.1 = col)).map Prod.snd

/-- `Schema._disallowed_extra_cols(schema)`: `[]` when extras are allowed,
else every raw-schema column not among the declared columns. -/
def disallowedExtraCols (D : SchemaDecl τ) (R : RawSchema τ) : List String :=
  if D.allowExtra then []
  else (rawSchemaCols R).filter (fun c => !(columnsD D).contains c)

/-- `Schema._missing_req_cols(schema)`: required columns absent from the
raw schema. -/
def missingReqCols (D : SchemaDecl τ) (R : RawSchema τ) : List String :=
  (requiredColumnsD D).filter (fun c => !(rawSchemaCols R).contains c)

/-- `Schema._mistyped_cols(schema)`: for every declared column present in
the raw schema whose declared mapped type differs from the raw schema's
reported type, the triple `(name, declared, raw)`, in `columns()` order. -/
def mistypedCols [DecidableEq τ] (D : SchemaDecl τ) (R : RawSchema τ) :
    List (String × τ × τ) :=
  (columnsD D).filterMap (fun c =>
    match rawSchemaColType R c, columnTypeD D c with
    | some got, some want => if want ≠ got then some (c, want, got) else none
    | _, _ => none)

/-- The payload of a `SchemaValidationError` raised by the validation
engine: the three aggregated lists (`None` fields of errors constructed
with only a message are modelled as `[]`). -/
structure SVError (τ : Type) where
  disallowedExtra : List String
  missingReq : List String
  mistyped : List (String × τ × τ)
deriving DecidableEq, Repr

/-- `Schema._validate_schema(schema)`: computes all three category lists,
then raises a single aggregated `SchemaValidationError` iff at least one
is non-empty (Python truthiness of the lists), else returns silently. -/
def validateSchema [DecidableEq τ] (D : SchemaDecl τ) (R : RawSchema τ) :
    Except (SVError τ) Unit :=
  let dis := disallowedExtraCols D R
  let miss := missingReqCols D R
  let mist := mistypedCols D R
  if dis ≠ [] ∨ miss ≠ [] ∨ mist ≠ [] then
    .error ⟨dis, miss, mist⟩
  else
    .ok ()

/-! ## Raw tables, the backend adapter, `validate` and `align` -/

/-- A raw table: an ordered list of columns, each a name with a payload of
type `ν` (one backend value standing for the whole column). -/
abbrev RawTable (ν : Type) := List (String × ν)

/-- The backend adapter operations on column payloads that the engine
needs: report the raw type of a column's payload (used by
`_raw_table_schema`, which derives a schema from a table), and cast a
payload to a target raw type (`None` models the backend raising on an
invalid/unsafe cast). -/
structure Backend (τ ν : Type) where
  typeOf : ν → τ
  castVal : ν → τ → Option ν

/-- `Schema._raw_table_schema(table)`: the raw schema derived from a
table, pairing each column name with its payload's raw type. -/
def rawTableSchema (B : Backend τ ν) (T : RawTable ν) : RawSchema τ :=
  T.map (fun p => (p.1, B.typeOf p.2))

/-- `Schema._raw_table_cols(tbl)` = `_raw_schema_cols(_raw_table_schema(tbl))`. -/
def rawTableCols (B : Backend τ ν) (T : RawTable ν) : List String :=
  rawSchemaCols (rawTableSchema B T)

/-- `Schema._validate_table(table)`: validate the table's derived schema.
Raises only `SchemaValidationError` (the error payload). -/
def validateTable [DecidableEq τ] (B : Backend τ ν) (D : SchemaDecl τ)
    (T : RawTable ν) : Except (SVError τ) Unit :=
  validateSchema D (rawTableSchema B T)

/-- What a call to `cls._validate_table(arg)` can do, as seen by the
`try`/`except` in `Schema.validate`: return, raise a
`SchemaValidationError`, or raise some other exception (as the
`JSONSchema._validate_table` override can). -/
inductive TblValOutcome (τ : Type) where
  | ok
  | svErr (e : SVError τ)
  | otherExc
deriving DecidableEq, Repr

/-- The observable outcome of `Schema.validate` on the table branch:
success, a propagated `SchemaValidationError` (with its aggregate
payload), or a raised `TableValidationError("Table validation failed")` —
which, per `exceptions.py`, is a bare `Exception` subclass carrying no
aggregate lists. -/
inductive ValidateOut (τ : Type) where
  | ok
  | schemaError (e : SVError τ)
  | tableError
deriving DecidableEq, Repr

/-- The `try`/`except` of the table branch of `Schema.validate`
(base.py lines 268-274): `TableValidationError` and
`SchemaValidationError` are re-raised unchanged; any other exception is
wrapped into `TableValidationError("Table validation failed")`. -/
def validateTableBranch (o : TblValOutcome τ) : ValidateOut τ :=
  match o with
  | .ok => .ok
  | .svErr e => .schemaError e
  | .otherExc => .tableError

/-- Lift the result of the base `_validate_table` (which raises only
`SchemaValidationError`) into the outcome type of the `try` block. -/
def tblValOutcome (r : Except (SVError τ) Unit) : TblValOutcome τ :=
  match r with
  | .ok _ => .ok
  | .error e => .svErr e

/-- `Schema.validate(arg)` on the table path, with the base
`_validate_table`: validate the derived schema, re-raising a
`SchemaValidationError` unchanged. -/
def validateTablePath [DecidableEq τ] (B : Backend τ ν) (D : SchemaDecl τ)
    (T : RawTable ν) : ValidateOut τ :=
  validateTableBranch (tblValOutcome (validateTable B D T))

/-- Value of the (first) column named `c` of a table. -/
def lookupCol (T : RawTable ν) (c : String) : Option ν :=
  (T.find? (fun p => p.1 = c)).map Prod.snd

/-- `Schema._align_col_order`'s target order: every declared field that is
required or present in the table, in declaration order; then, when extras
are allowed, every table column not already placed, in its original
relative order. -/
def alignColOrder (D : SchemaDecl τ) (tableCols : List String) : List String :=
  let declPart := (D.fields.filter
    (fun f => !f.optional || tableCols.contains f.name)).map FieldDecl.name
  if D.allowExtra then
    declPart ++ tableCols.filter (fun c => !declPart.contains c)
  else
    declPart

/-- The backend `_reorder_raw_table(tbl, tbl_order)` (a pure projection:
`{k: tbl[k] for k in order}` / `tbl.select(order)`); `none` models the
backend raising when a requested column is absent. -/
def reorderRawTable (T : RawTable ν) : List String → Option (RawTable ν)
  | [] => some []
  | c :: order =>
      match lookupCol T c, reorderRawTable T order with
      | some v, some t => some ((c, v) :: t)
      | _, _ => none

/-- The backend `_cast_raw_table_column(tbl, col, want_type)`: replace the
(first) column named `col` by its payload cast to `want`; `none` models
the backend raising (absent column or failed cast). -/
def castRawTableColumn (B : Backend τ ν) (T : RawTable ν) (col : String)
    (want : τ) : Option (RawTable ν) :=
  match T with
  | [] => none
  | (n, v) :: rest =>
      if n = col then
        (B.castVal v want).map (fun v' => (n, v') :: rest)
      else
        (castRawTableColumn B rest col want).map (fun t' => (n, v) :: t')

/-- `Schema._cast_raw_table(tbl, mistyped_cols)`: cast each mistyped
column in turn to its wanted type; any failure aborts (the exception
propagates to `align`'s handler). -/
def castRawTable (B : Backend τ ν) (T : RawTable ν)
    (mist : List (String × τ × τ)) : Option (RawTable ν) :=
  match mist with
  | [] => some T
  | (c, want, _) :: rest =>
      match castRawTableColumn B T c want with
      | some T' => castRawTable B T' rest
      | none => none

/-- The observable outcome of `Schema.align`: the aligned table, a raised
`SchemaValidationError`, or an exception escaping uncaught (e.g. the
backend's reorder raising on an absent column). -/
inductive AlignOut (τ ν : Type) where
  | table (t : RawTable ν)
  | schemaError (e : SVError τ)
  | rawError
deriving DecidableEq

/-- `Schema.align(tbl)` with the base table-path `validate`:

1. validate; on a `SchemaValidationError` with non-empty missing-required
   or disallowed-extra lists, re-raise a fresh error carrying those two
   lists (and no mistyped list); on a purely-mistyped error, remember the
   mistyped list and continue; re-raise any other validation error;
2. reorder the columns to `alignColOrder`;
3. if there were mistyped columns, cast them, and on any cast failure
   raise a `SchemaValidationError` re-reporting the original mistyped
   list. -/
def align [DecidableEq τ] (B : Backend τ ν) (D : SchemaDecl τ)
    (T : RawTable ν) : AlignOut τ ν :=
  let step : Except (SVError τ) (List (String × τ × τ)) :=
    match validateTable B D T with
    | .ok _ => .ok []
    | .error e =>
        if e.missingReq ≠ [] ∨ e.disallowedExtra ≠ [] then
          .error ⟨e.disallowedExtra, e.missingReq, []⟩
        else if e.mistyped ≠ [] then
          .ok e.mistyped
        else
          .error e
  match step with
  | .error e => .schemaError e
  | .ok mist =>
      match reorderRawTable T (alignColOrder D (rawTableCols B T)) with
      | none => .rawError
      | some t =>
          if mist ≠ [] then
            match castRawTable B t mist with
            | some t' => .table t'
            | none => .schemaError ⟨[], [], mist⟩
          else
            .table t

/-- Column order as the spec's words describe it (for comparison with
`alignColOrder`, which is translated from `_align_col_order`): every
required column in declaration order, then every optional column actually
present in the input in declaration order, then — when extras are
allowed — the remaining input columns not already placed, in their
original relative order. -/
def specAlignOrder (D : SchemaDecl τ) (tableCols : List String) : List String :=
  let placed := requiredColumnsD D
    ++ (optionalColumnsD D).filter (fun c => tableCols.contains c)
  if D.allowExtra then
    placed ++ tableCols.filter (fun c => !placed.contains c)
  else
    placed

/-- The declaration lists all required fields before all optional ones
(the usual dataclass shape, since fields with defaults must follow fields
without). -/
def requiredFirst (D : SchemaDecl τ) : Prop :=
  D.fields = D.fields.filter (fun f => !f.optional)
    ++ D.fields.filter (fun f => f.optional)

/-- A table in which every column's payload equals the payload of the
first column with the same name (true of every table produced by the
backend's reorder projection). -/
def Consistent (T : RawTable ν) : Prop :=
  ∀ p ∈ T, lookupCol T p.1 = some p.2

/-- A concrete backend instance over string raw types in which each
column payload is its own raw type and every cast succeeds, producing a
payload of exactly the requested type. -/
def strBackend : Backend String String :=
  ⟨fun v => v, fun _ t => some t⟩

/-- A concrete backend instance over string raw types in which every
cast fails (the backend always reports an invalid cast). -/
def failBackend : Backend String String :=
  ⟨fun v => v, fun _ _ => none⟩

/-! ## Dictionary-like record instances (`SchemaMeta.__new__` / `Schema`) -/

/-- A declared dataclass field as `new_init`/`old_init` see it: its name
and its dataclass default, when one is declared.  Python attribute values
are modelled as `Option ν`, with `Option.none` standing for Python
`None`; a declared default is therefore an `Option (Option ν)`:
`none` = no default (`MISSING`), `some d` = default `d` (itself possibly
`None`). -/
structure FieldSpec (ν : Type) where
  name : String
  default : Option (Option ν)
deriving DecidableEq, Repr

/-- The dataclass-generated `__init__` (called `old_init` in
`SchemaMeta.__new__`) on the keyword arguments that name declared fields:
each field takes its passed value, else its default; a required field
with neither raises `TypeError` (`none`).  The result is the instance
`__dict__`, declared fields in declaration order. -/
def oldInit (toPass : List (String × Option ν)) :
    List (FieldSpec ν) → Option (List (String × Option ν))
  | [] => some []
  | f :: rest =>
      let fieldVal : Option (String × Option ν) :=
        match lookupCol toPass f.name with
        | some v => some (f.name, v)
        | none => f.default.map (fun d => (f.name, d))
      match fieldVal, oldInit toPass rest with
      | some kv, some d => some (kv :: d)
      | _, _ => none

/-- The observable outcome of constructing a `Schema` instance:
the instance `__dict__`, a `SchemaValidationError` naming the extra keys,
or a `TypeError` from the dataclass `__init__`. -/
inductive InitOutcome (ν : Type) where
  | ok (dict : List (String × Option ν))
  | svError (extraKeys : List String)
  | typeError
deriving DecidableEq, Repr

/-- The `new_init` installed by `SchemaMeta.__new__`, on keyword
arguments: split them into declared (`to_pass`) and extra keys; when
extras are disallowed and present, raise a `SchemaValidationError` naming
the extra keys; else run the dataclass `__init__` on `to_pass` and then
store each extra key on the instance in order (via `__setitem__`, which
is a plain `setattr` on this path). -/
def newInit [DecidableEq ν] (allowExtra : Bool) (flds : List (FieldSpec ν))
    (kwargs : List (String × Option ν)) : InitOutcome ν :=
  let fieldNames := flds.map FieldSpec.name
  let extra := kwargs.filter (fun kv => !fieldNames.contains kv.1)
  if !allowExtra ∧ extra ≠ [] then
    .svError (extra.map Prod.fst)
  else
    match oldInit (kwargs.filter (fun kv => fieldNames.contains kv.1)) flds with
    | none => .typeError
    | some d => .ok (d ++ extra)

/-- `Schema.to_dict()`: `{k: v for k, v in self.__dict__.items() if v is
not None}` — the attributes whose value is not `None`. -/
def toDictS (d : List (String × Option ν)) : List (String × ν) :=
  d.filterMap (fun kv => kv.2.map (fun v => (kv.1, v)))

/-- `Schema.keys()` (and the iteration order): the keys of `to_dict()`. -/
def keysS (d : List (String × Option ν)) : List String :=
  (toDictS d).map Prod.fst

/-! ## Helper lemmas -/

theorem lookupCol_eq_some_mem {T : RawTable ν} {c : String} {v : ν}
    (h : lookupCol T c = some v) : (c, v) ∈ T := by
  unfold lookupCol at h
  rcases hf : T.find? (fun p => p.1 = c) with _ | p
  · rw [hf] at h; simp at h
  · rw [hf] at h
    have hpc : p.1 = c := by
      have := List.find?_some hf
      simpa using this
    have hmem := List.mem_of_find?_eq_some hf
    simp at h
    rcases p with ⟨a, b⟩
    simp at hpc h
    subst hpc; subst h; exact hmem

theorem lookupCol_isSome_iff {T : RawTable ν} {c : String} :
    (lookupCol T c).isSome ↔ c ∈ T.map Prod.fst := by
  induction T with
  | nil => simp [lookupCol]
  | cons p rest ih =>
      by_cases hp : p.1 = c
      · simp [lookupCol, List.find?_cons, hp]
      · simp only [lookupCol, List.find?_cons] at ih ⊢
        simp [hp, ih, Ne.symm hp]

theorem lookupCol_cons_ne {p : String × ν} {T : RawTable ν} {c : String}
    (h : p.1 ≠ c) : lookupCol (p :: T) c = lookupCol T c := by
  simp [lookupCol, List.find?_cons, h]

theorem lookupCol_cons_eq {p : String × ν} {T : RawTable ν} {c : String}
    (h : p.1 = c) : lookupCol (p :: T) c = some p.2 := by
  simp [lookupCol, List.find?_cons, h]

theorem mem_lookupCol_isSome {T : RawTable ν} {p : String × ν}
    (h : p ∈ T) : (lookupCol T p.1).isSome := by
  rw [lookupCol_isSome_iff]
  exact List.mem_map_of_mem Prod.fst h

theorem Consistent.tail {p : String × ν} {T : RawTable ν}
    (h : Consistent (p :: T)) : Consistent T := by
  intro q hq
  by_cases hqp : q.1 = p.1
  · have hq2 : q.2 = p.2 := by
      have h2 := h q (List.mem_cons_of_mem p hq)
      rw [lookupCol_cons_eq hqp.symm] at h2
      exact (Option.some.inj h2).symm
    obtain ⟨w, hw⟩ := Option.isSome_iff_exists.mp (mem_lookupCol_isSome hq)
    have hwmem : (q.1, w) ∈ T := lookupCol_eq_some_mem hw
    have h3 := h (q.1, w) (List.mem_cons_of_mem p hwmem)
    simp only at h3
    rw [lookupCol_cons_eq hqp.symm] at h3
    have hw2 : w = p.2 := (Option.some.inj h3).symm
    rw [hw, hw2, hq2]
  · have h2 := h q (List.mem_cons_of_mem p hq)
    rwa [lookupCol_cons_ne (fun hc => hqp hc.symm)] at h2

theorem reorder_cols {T : RawTable ν} {order : List String} {t : RawTable ν}
    (h : reorderRawTable T order = some t) : t.map Prod.fst = order := by
  induction order generalizing t with
  | nil => simp [reorderRawTable] at h; simp [← h]
  | cons c order ih =>
      unfold reorderRawTable at h
      rcases hl : lookupCol T c with _ | v <;> rw [hl] at h
      · simp at h
      · rcases hr : reorderRawTable T order with _ | t' <;> rw [hr] at h
        · simp at h
        · simp at h
          rw [← h]
          simp [ih hr]

theorem reorder_mem {T : RawTable ν} {order : List String} {t : RawTable ν}
    (h : reorderRawTable T order = some t) :
    ∀ p ∈ t, lookupCol T p.1 = some p.2 := by
  induction order generalizing t with
  | nil =>
      simp [reorderRawTable] at h
      subst h
      intro p hp
      simp at hp
  | cons c order ih =>
      unfold reorderRawTable at h
      rcases hl : lookupCol T c with _ | v <;> rw [hl] at h
      · simp at h
      · rcases hr : reorderRawTable T order with _ | t' <;> rw [hr] at h
        · simp at h
        · simp at h
          rw [← h]
          intro p hp
          rcases List.mem_cons.mp hp with hph | hpt
          · subst hph; simpa using hl
          · exact ih hr p hpt

theorem reorder_isSome {T : RawTable ν} {order : List String}
    (h : ∀ c ∈ order, c ∈ T.map Prod.fst) :
    ∃ t, reorderRawTable T order = some t := by
  induction order with
  | nil => exact ⟨[], rfl⟩
  | cons c order ih =>
      obtain ⟨t', ht'⟩ := ih (fun d hd => h d (List.mem_cons_of_mem c hd))
      obtain ⟨v, hv⟩ := Option.isSome_iff_exists.mp
        (lookupCol_isSome_iff.mpr (h c (List.mem_cons_self c order)))
      exact ⟨(c, v) :: t', by simp [reorderRawTable, hv, ht']⟩

theorem reorder_consistent {T : RawTable ν} {order : List String}
    {t : RawTable ν} (h : reorderRawTable T order = some t) : Consistent t := by
  intro p hp
  obtain ⟨w, hw⟩ := Option.isSome_iff_exists.mp (mem_lookupCol_isSome hp)
  have hmem : (p.1, w) ∈ t := lookupCol_eq_some_mem hw
  have h1 := reorder_mem h p hp
  have h2 := reorder_mem h (p.1, w) hmem
  simp only at h2
  rw [h1] at h2
  rw [hw, Option.some.inj h2]

theorem consistent_reorder_self {t : RawTable ν} (h : Consistent t) :
    reorderRawTable t (t.map Prod.fst) = some t := by
  suffices hgen : ∀ s : RawTable ν, (∀ p ∈ s, lookupCol t p.1 = some p.2) →
      reorderRawTable t (s.map Prod.fst) = some s by
    exact hgen t h
  intro s
  induction s with
  | nil => intro _; rfl
  | cons p rest ih =>
      intro hs
      have hp := hs p (List.mem_cons_self p rest)
      have hrest := ih (fun q hq => hs q (List.mem_cons_of_mem p hq))
      simp only [List.map_cons]
      unfold reorderRawTable
      rw [hp, hrest]

theorem castCol_cols {B : Backend τ ν} {T t' : RawTable ν} {c : String}
    {w : τ} (h : castRawTableColumn B T c w = some t') :
    t'.map Prod.fst = T.map Prod.fst := by
  induction T generalizing t' with
  | nil => simp [castRawTableColumn] at h
  | cons p rest ih =>
      unfold castRawTableColumn at h
      by_cases hp : p.1 = c
      · rw [if_pos hp] at h
        rcases hc : B.castVal p.2 w with _ | v' <;> rw [hc] at h
        · simp at h
        · simp at h; rw [← h]; simp
      · rw [if_neg hp] at h
        rcases hr : castRawTableColumn B rest c w with _ | t'' <;> rw [hr] at h
        · simp at h
        · simp at h; rw [← h]; simp [ih hr]

theorem castCol_mem_ne {B : Backend τ ν} {T t' : RawTable ν} {c : String}
    {w : τ} (h : castRawTableColumn B T c w = some t') :
    ∀ p ∈ t', p.1 ≠ c → p ∈ T := by
  induction T generalizing t' with
  | nil => simp [castRawTableColumn] at h
  | cons q rest ih =>
      unfold castRawTableColumn at h
      by_cases hq : q.1 = c
      · rw [if_pos hq] at h
        rcases hc : B.castVal q.2 w with _ | v' <;> rw [hc] at h
        · simp at h
        · simp at h
          intro p hp hpc
          rw [← h] at hp
          rcases List.mem_cons.mp hp with hph | hpt
          · exact absurd (hph ▸ hq) hpc
          · exact List.mem_cons_of_mem q hpt
      · rw [if_neg hq] at h
        rcases hr : castRawTableColumn B rest c w with _ | t'' <;> rw [hr] at h
        · simp at h
        · simp at h
          intro p hp hpc
          rw [← h] at hp
          rcases List.mem_cons.mp hp with hph | hpt
          · exact hph ▸ List.mem_cons_self q rest
          · exact List.mem_cons_of_mem q (ih hr p hpt hpc)

theorem castCol_lookup_ne {B : Backend τ ν} {T t' : RawTable ν} {c : String}
    {w : τ} (h : castRawTableColumn B T c w = some t') {d : String}
    (hd : d ≠ c) : lookupCol t' d = lookupCol T d := by
  induction T generalizing t' with
  | nil => simp [castRawTableColumn] at h
  | cons q rest ih =>
      unfold castRawTableColumn at h
      by_cases hq : q.1 = c
      · rw [if_pos hq] at h
        rcases hc : B.castVal q.2 w with _ | v' <;> rw [hc] at h
        · simp at h
        · simp at h
          rw [← h]
          have hne : q.1 ≠ d := fun hh => hd (hh ▸ hq)
          rw [lookupCol_cons_ne (p := (q.1, v')) hne, lookupCol_cons_ne hne]
      · rw [if_neg hq] at h
        rcases hr : castRawTableColumn B rest c w with _ | t'' <;> rw [hr] at h
        · simp at h
        · simp at h
          rw [← h]
          by_cases hqd : q.1 = d
          · rw [lookupCol_cons_eq hqd, lookupCol_cons_eq hqd]
          · rw [lookupCol_cons_ne hqd, lookupCol_cons_ne hqd, ih hr]

theorem castCol_lookup_eq {B : Backend τ ν} {T t' : RawTable ν} {c : String}
    {w : τ} (h : castRawTableColumn B T c w = some t') :
    ∃ v v', lookupCol T c = some v ∧ B.castVal v w = some v' ∧
      lookupCol t' c = some v' := by
  induction T generalizing t' with
  | nil => simp [castRawTableColumn] at h
  | cons q rest ih =>
      unfold castRawTableColumn at h
      by_cases hq : q.1 = c
      · rw [if_pos hq] at h
        rcases hc : B.castVal q.2 w with _ | v' <;> rw [hc] at h
        · simp at h
        · simp at h
          exact ⟨q.2, v', lookupCol_cons_eq hq, hc, by
            rw [← h, lookupCol_cons_eq (show (q.1, v').1 = c from hq)]⟩
      · rw [if_neg hq] at h
        rcases hr : castRawTableColumn B rest c w with _ | t'' <;> rw [hr] at h
        · simp at h
        · simp at h
          obtain ⟨v, v', h1, h2, h3⟩ := ih hr
          exact ⟨v, v', by rw [lookupCol_cons_ne hq, h1], h2, by
            rw [← h, lookupCol_cons_ne hq, h3]⟩

theorem castCol_consistent {B : Backend τ ν} {T t' : RawTable ν}
    {c : String} {w : τ} (hcount : (T.map Prod.fst).count c ≤ 1)
    (hcons : Consistent T) (h : castRawTableColumn B T c w = some t') :
    Consistent t' := by
  induction T generalizing t' with
  | nil => simp [castRawTableColumn] at h
  | cons q rest ih =>
      unfold castRawTableColumn at h
      by_cases hq : q.1 = c
      · rw [if_pos hq] at h
        rcases hc : B.castVal q.2 w with _ | v' <;> rw [hc] at h
        · simp at h
        · simp at h
          have hnotin : c ∉ rest.map Prod.fst := by
            intro hmem
            have h1 : 1 ≤ (rest.map Prod.fst).count c := List.one_le_count_iff.mpr hmem
            have h2 : ((q :: rest).map Prod.fst).count c
                = (rest.map Prod.fst).count c + 1 := by
              simp [List.count_cons, hq]
            rw [h2] at hcount
            omega
          rw [← h]
          intro p hp
          rcases List.mem_cons.mp hp with hph | hpt
          · subst hph
            exact lookupCol_cons_eq rfl
          · have hpne : p.1 ≠ q.1 := by
              intro hpq
              exact hnotin (hq ▸ hpq ▸ List.mem_map_of_mem Prod.fst hpt)
            rw [lookupCol_cons_ne (p := (q.1, v')) (fun hh => hpne hh.symm)]
            have h2 := hcons p (List.mem_cons_of_mem q hpt)
            rwa [lookupCol_cons_ne (fun hh => hpne hh.symm)] at h2
      · rw [if_neg hq] at h
        rcases hr : castRawTableColumn B rest c w with _ | t'' <;> rw [hr] at h
        · simp at h
        · simp at h
          have hcount' : (rest.map Prod.fst).count c ≤ 1 := by
            have := hcount
            simp only [List.map_cons, List.count_cons] at this
            omega
          have hcons'' := ih hcount' hcons.tail hr
          rw [← h]
          intro p hp
          rcases List.mem_cons.mp hp with hph | hpt
          · subst hph
            exact lookupCol_cons_eq rfl
          · by_cases hpq : p.1 = q.1
            · have hpc : p.1 ≠ c := fun hh => hq (hpq ▸ hh)
              have hmemrest : p ∈ rest := castCol_mem_ne hr p hpt hpc
              have h2 := hcons p (List.mem_cons_of_mem q hmemrest)
              rw [lookupCol_cons_eq hpq.symm] at h2
              rw [lookupCol_cons_eq hpq.symm, h2]
            · rw [lookupCol_cons_ne (fun hh => hpq hh.symm)]
              exact hcons'' p hpt

theorem castTable_cols {B : Backend τ ν} {T t' : RawTable ν}
    {mist : List (String × τ × τ)} (h : castRawTable B T mist = some t') :
    t'.map Prod.fst = T.map Prod.fst := by
  induction mist generalizing T with
  | nil => simp [castRawTable] at h; rw [h]
  | cons x rest ih =>
      rcases x with ⟨c, w, g⟩
      unfold castRawTable at h
      rcases hc : castRawTableColumn B T c w with _ | T1 <;> rw [hc] at h
      · simp at h
      · rw [ih h, castCol_cols hc]

theorem castTable_consistent {B : Backend τ ν} {T t' : RawTable ν}
    {mist : List (String × τ × τ)}
    (hcount : ∀ x ∈ mist, (T.map Prod.fst).count x.1 ≤ 1)
    (hcons : Consistent T) (h : castRawTable B T mist = some t') :
    Consistent t' := by
  induction mist generalizing T with
  | nil => simp [castRawTable] at h; rw [← h]; exact hcons
  | cons x rest ih =>
      rcases x with ⟨c, w, g⟩
      unfold castRawTable at h
      rcases hc : castRawTableColumn B T c w with _ | T1 <;> rw [hc] at h
      · simp at h
      · have hT1cols : T1.map Prod.fst = T.map Prod.fst := castCol_cols hc
        refine ih (fun x hx => ?_) ?_ h
        · rw [hT1cols]
          exact hcount x (List.mem_cons_of_mem _ hx)
        · exact castCol_consistent
            (by simpa using hcount (c, w, g) (List.mem_cons_self _ _)) hcons hc

theorem castTable_lookup_not_mem {B : Backend τ ν} {T t' : RawTable ν}
    {mist : List (String × τ × τ)} (h : castRawTable B T mist = some t')
    {c : String} (hc : ∀ x ∈ mist, x.1 ≠ c) :
    lookupCol t' c = lookupCol T c := by
  induction mist generalizing T with
  | nil => simp [castRawTable] at h; rw [h]
  | cons x rest ih =>
      rcases x with ⟨d, w, g⟩
      unfold castRawTable at h
      rcases hcast : castRawTableColumn B T d w with _ | T1 <;> rw [hcast] at h
      · simp at h
      · have h1 := ih h (fun x hx => hc x (List.mem_cons_of_mem _ hx))
        rw [h1, castCol_lookup_ne hcast
          (fun hh => hc (d, w, g) (List.mem_cons_self _ _) hh.symm)]

theorem castTable_lookup_mem {B : Backend τ ν} {T t' : RawTable ν}
    {mist : List (String × τ × τ)} (h : castRawTable B T mist = some t')
    (hnodup : (mist.map (fun x => x.1)).Nodup) {c : String} {w g : τ}
    (hx : (c, w, g) ∈ mist) :
    ∃ v v', B.castVal v w = some v' ∧ lookupCol t' c = some v' := by
  induction mist generalizing T with
  | nil => simp at hx
  | cons x rest ih =>
      rcases x with ⟨d, w', g'⟩
      unfold castRawTable at h
      rcases hcast : castRawTableColumn B T d w' with _ | T1 <;> rw [hcast] at h
      · simp at h
      · rcases List.mem_cons.mp hx with hxh | hxt
        · injection hxh with h1 h2
          injection h2 with h2 h3
          subst h1; subst h2; subst h3
          obtain ⟨v, v', hT, hcastv, hT1⟩ := castCol_lookup_eq hcast
          have hnodupc : c ∉ rest.map (fun x => x.1) := by
            simpa using (List.nodup_cons.mp hnodup).1
          have hnot : ∀ x ∈ rest, x.1 ≠ c := by
            intro x hxr hxc
            exact hnodupc (hxc ▸ List.mem_map_of_mem (fun x => x.1) hxr)
          refine ⟨v, v', hcastv, ?_⟩
          rw [castTable_lookup_not_mem h hnot]
          exact hT1
        · exact ih h (List.nodup_cons.mp hnodup).2 hxt

theorem rawTableCols_eq (B : Backend τ ν) (T : RawTable ν) :
    rawTableCols B T = T.map Prod.fst := by
  simp [rawTableCols, rawSchemaCols, rawTableSchema, List.map_map, Function.comp]

theorem rawSchemaColType_tableSchema (B : Backend τ ν) (T : RawTable ν)
    (c : String) :
    rawSchemaColType (rawTableSchema B T) c = (lookupCol T c).map B.typeOf := by
  induction T with
  | nil => rfl
  | cons p rest ih =>
      by_cases hp : p.1 = c
      · simp [rawSchemaColType, rawTableSchema, lookupCol, List.find?_cons, hp]
      · simpa [rawSchemaColType, rawTableSchema, lookupCol, List.find?_cons, hp]
          using ih

theorem missingReqCols_eq_nil_iff (D : SchemaDecl τ) (R : RawSchema τ) :
    missingReqCols D R = [] ↔
      ∀ c ∈ requiredColumnsD D, c ∈ rawSchemaCols R := by
  simp [missingReqCols, List.filter_eq_nil_iff, List.elem_iff]

theorem disallowedExtraCols_eq_nil_iff (D : SchemaDecl τ) (R : RawSchema τ) :
    disallowedExtraCols D R = [] ↔
      (D.allowExtra = true ∨ ∀ c ∈ rawSchemaCols R, c ∈ columnsD D) := by
  unfold disallowedExtraCols
  by_cases h : D.allowExtra <;>
    simp [h, List.filter_eq_nil_iff, List.elem_iff]

theorem mistypedCols_eq_nil_iff [DecidableEq τ] (D : SchemaDecl τ)
    (R : RawSchema τ) :
    mistypedCols D R = [] ↔ ∀ c ∈ columnsD D, ∀ got want,
      rawSchemaColType R c = some got → columnTypeD D c = some want →
      want = got := by
  unfold mistypedCols
  rw [List.filterMap_eq_nil_iff]
  constructor
  · intro h c hc got want hgot hwant
    have h1 := h c hc
    rw [hgot, hwant] at h1
    by_cases hne : want = got
    · exact hne
    · simp [hne] at h1
  · intro h c hc
    rcases hgot : rawSchemaColType R c with _ | got
    · simp [hgot]
    rcases hwant : columnTypeD D c with _ | want
    · simp [hgot, hwant]
    simp [hgot, hwant, h c hc got want hgot hwant]

theorem mem_mistypedCols [DecidableEq τ] {D : SchemaDecl τ} {R : RawSchema τ}
    {c : String} {want got : τ} (h : (c, want, got) ∈ mistypedCols D R) :
    c ∈ columnsD D ∧ rawSchemaColType R c = some got ∧
      columnTypeD D c = some want ∧ want ≠ got := by
  unfold mistypedCols at h
  rw [List.mem_filterMap] at h
  obtain ⟨a, ha, hfa⟩ := h
  rcases hg : rawSchemaColType R a with _ | g <;> rw [hg] at hfa
  · simp at hfa
  rcases hw : columnTypeD D a with _ | w <;> rw [hw] at hfa
  · simp at hfa
  dsimp only at hfa
  by_cases hne : w = g
  · simp [hne] at hfa
  · rw [if_pos hne] at hfa
    injection hfa with h1
    injection h1 with h1 h2
    injection h2 with h2 h3
    subst h1; subst h2; subst h3
    exact ⟨ha, hg, hw, hne⟩

theorem mem_mistypedCols_intro [DecidableEq τ] {D : SchemaDecl τ}
    {R : RawSchema τ} {c : String} {want got : τ} (hc : c ∈ columnsD D)
    (hgot : rawSchemaColType R c = some got)
    (hwant : columnTypeD D c = some want) (hne : want ≠ got) :
    (c, want, got) ∈ mistypedCols D R := by
  unfold mistypedCols
  rw [List.mem_filterMap]
  refine ⟨c, hc, ?_⟩
  rw [hgot, hwant]
  dsimp only
  rw [if_pos hne]

theorem mem_columnsD_iff {D : SchemaDecl τ} {c : String} :
    c ∈ columnsD D ↔ ∃ f ∈ D.fields, f.name = c := by
  simp only [columnsD, requiredColumnsD, optionalColumnsD, List.mem_append,
    List.mem_map, List.mem_filter]
  constructor
  · rintro (⟨f, ⟨hf, _⟩, rfl⟩ | ⟨f, ⟨hf, _⟩, rfl⟩) <;> exact ⟨f, hf, rfl⟩
  · rintro ⟨f, hf, rfl⟩
    by_cases hopt : f.optional
    · right; exact ⟨f, ⟨hf, by simp [hopt]⟩, rfl⟩
    · left; exact ⟨f, ⟨hf, by simp [hopt]⟩, rfl⟩

theorem filterMap_map_sublist {α β : Type} (f : α → Option β) (nm : β → α)
    (hf : ∀ a b, f a = some b → nm b = a) (l : List α) :
    List.Sublist ((l.filterMap f).map nm) l := by
  induction l with
  | nil => simp
  | cons a l ih =>
      rcases hfa : f a with _ | b
      · rw [List.filterMap_cons_none hfa]
        exact ih.cons a
      · rw [List.filterMap_cons_some hfa]
        rw [List.map_cons, hf a b hfa]
        exact ih.cons₂ a

theorem columnsD_nodup {D : SchemaDecl τ}
    (hnd : (D.fields.map FieldDecl.name).Nodup) : (columnsD D).Nodup := by
  have hreq : List.Sublist (requiredColumnsD D) (D.fields.map FieldDecl.name) := by
    unfold requiredColumnsD
    exact (List.filter_sublist D.fields).map FieldDecl.name
  have hopt : List.Sublist (optionalColumnsD D) (D.fields.map FieldDecl.name) := by
    unfold optionalColumnsD
    exact (List.filter_sublist D.fields).map FieldDecl.name
  rw [columnsD, List.nodup_append]
  refine ⟨hreq.nodup hnd, hopt.nodup hnd, ?_⟩
  intro c hc1 hc2
  simp only [requiredColumnsD, List.mem_map, List.mem_filter] at hc1
  simp only [optionalColumnsD, List.mem_map, List.mem_filter] at hc2
  obtain ⟨f, ⟨hfmem, hfopt⟩, rfl⟩ := hc1
  obtain ⟨g, ⟨hgmem, hgopt⟩, hgname⟩ := hc2
  have hfg : g = f := List.inj_on_of_nodup_map hnd hgmem hfmem hgname
  rw [hfg] at hgopt
  simp at hfopt
  rw [hfopt] at hgopt
  simp at hgopt

theorem mistypedCols_names_sublist [DecidableEq τ] (D : SchemaDecl τ)
    (R : RawSchema τ) :
    List.Sublist ((mistypedCols D R).map (fun x => x.1)) (columnsD D) := by
  unfold mistypedCols
  refine filterMap_map_sublist _ _ ?_ _
  intro a b hab
  rcases hg : rawSchemaColType R a with _ | g <;> rw [hg] at hab
  · simp at hab
  rcases hw : columnTypeD D a with _ | w <;> rw [hw] at hab
  · simp at hab
  dsimp only at hab
  by_cases hne : w = g
  · simp [hne] at hab
  · rw [if_pos hne] at hab
    injection hab with h1
    rw [← h1]

theorem required_mem_alignColOrder {D : SchemaDecl τ} (tcols : List String)
    {c : String} (hc : c ∈ requiredColumnsD D) : c ∈ alignColOrder D tcols := by
  simp only [requiredColumnsD, List.mem_map, List.mem_filter] at hc
  obtain ⟨f, ⟨hf, hopt⟩, rfl⟩ := hc
  have hd : f.name ∈ (D.fields.filter
      (fun g => !g.optional || tcols.contains g.name)).map FieldDecl.name :=
    List.mem_map_of_mem _ (List.mem_filter.mpr ⟨hf, by simp_all⟩)
  unfold alignColOrder
  by_cases ha : D.allowExtra
  · rw [if_pos ha]
    exact List.mem_append_left _ hd
  · rw [if_neg ha]
    exact hd

theorem optional_present_mem_alignColOrder {D : SchemaDecl τ}
    {tcols : List String} {f : FieldDecl τ} (hf : f ∈ D.fields)
    (hpres : f.name ∈ tcols) : f.name ∈ alignColOrder D tcols := by
  have hd : f.name ∈ (D.fields.filter
      (fun g => !g.optional || tcols.contains g.name)).map FieldDecl.name := by
    refine List.mem_map_of_mem _ (List.mem_filter.mpr ⟨hf, ?_⟩)
    simp [hpres]
  unfold alignColOrder
  by_cases ha : D.allowExtra
  · rw [if_pos ha]
    exact List.mem_append_left _ hd
  · rw [if_neg ha]
    exact hd

theorem alignColOrder_mem_cases {D : SchemaDecl τ} {tcols : List String}
    {c : String} (hc : c ∈ alignColOrder D tcols) :
    (∃ f ∈ D.fields, f.name = c) ∨ c ∈ tcols := by
  unfold alignColOrder at hc
  by_cases ha : D.allowExtra
  · rw [if_pos ha] at hc
    rcases List.mem_append.mp hc with hd | he
    · simp only [List.mem_map, List.mem_filter] at hd
      obtain ⟨f, ⟨hf, _⟩, rfl⟩ := hd
      exact Or.inl ⟨f, hf, rfl⟩
    · exact Or.inr (List.mem_of_mem_filter he)
  · rw [if_neg ha] at hc
    simp only [List.mem_map, List.mem_filter] at hc
    obtain ⟨f, ⟨hf, _⟩, rfl⟩ := hc
    exact Or.inl ⟨f, hf, rfl⟩

theorem alignColOrder_names_present {D : SchemaDecl τ} {tcols : List String}
    (hreq : ∀ c ∈ requiredColumnsD D, c ∈ tcols) :
    ∀ c ∈ alignColOrder D tcols, c ∈ tcols := by
  intro c hc
  unfold alignColOrder at hc
  have hdecl : ∀ d ∈ (D.fields.filter
      (fun g => !g.optional || tcols.contains g.name)).map FieldDecl.name,
      d ∈ tcols := by
    intro d hd
    simp only [List.mem_map, List.mem_filter] at hd
    obtain ⟨f, ⟨hf, hp⟩, rfl⟩ := hd
    rcases Bool.or_eq_true_iff.mp hp with hno | hcont
    · refine hreq f.name ?_
      simp only [requiredColumnsD, List.mem_map, List.mem_filter]
      exact ⟨f, ⟨hf, hno⟩, rfl⟩
    · exact List.elem_iff.mp hcont
  by_cases ha : D.allowExtra
  · rw [if_pos ha] at hc
    rcases List.mem_append.mp hc with hd | he
    · exact hdecl c hd
    · exact List.mem_of_mem_filter he
  · rw [if_neg ha] at hc
    exact hdecl c hc

theorem alignColOrder_count_le_one {D : SchemaDecl τ}
    (hnd : (D.fields.map FieldDecl.name).Nodup) {tcols : List String}
    {c : String} (hc : c ∈ columnsD D) :
    (alignColOrder D tcols).count c ≤ 1 := by
  have hdnodup : ((D.fields.filter
      (fun g => !g.optional || tcols.contains g.name)).map FieldDecl.name).Nodup :=
    ((List.filter_sublist D.fields).map FieldDecl.name).nodup hnd
  have hdcount : ((D.fields.filter
      (fun g => !g.optional || tcols.contains g.name)).map FieldDecl.name).count c ≤ 1 :=
    List.nodup_iff_count_le_one.mp hdnodup c
  unfold alignColOrder
  by_cases ha : D.allowExtra
  · rw [if_pos ha, List.count_append]
    by_cases hmem : c ∈ (D.fields.filter
        (fun g => !g.optional || tcols.contains g.name)).map FieldDecl.name
    · have hz : (tcols.filter (fun d => !(List.contains ((D.fields.filter
          (fun g => !g.optional || tcols.contains g.name)).map FieldDecl.name) d))).count c = 0 := by
        rw [List.count_eq_zero]
        intro hcmem
        have := List.of_mem_filter hcmem
        rw [Bool.not_eq_true', ← Bool.not_eq_true] at this
        exact this (List.elem_iff.mpr hmem)
      omega
    · -- c is declared but not in the declared part, so c is optional and absent
      have hz : (tcols.filter (fun d => !(List.contains ((D.fields.filter
          (fun g => !g.optional || tcols.contains g.name)).map FieldDecl.name) d))).count c = 0 := by
        rw [List.count_eq_zero]
        intro hcmem
        have hctc : c ∈ tcols := List.mem_of_mem_filter hcmem
        obtain ⟨f, hf, rfl⟩ := mem_columnsD_iff.mp hc
        exact hmem (List.mem_map_of_mem _ (List.mem_filter.mpr
          ⟨hf, Bool.or_eq_true_iff.mpr (Or.inr (List.elem_iff.mpr hctc))⟩))
      have hz2 : ((D.fields.filter
          (fun g => !g.optional || tcols.contains g.name)).map FieldDecl.name).count c = 0 :=
        List.count_eq_zero.mpr hmem
      omega
  · rw [if_neg ha]
    exact hdcount

theorem optional_mem_alignColOrder_iff {D : SchemaDecl τ}
    (hnd : (D.fields.map FieldDecl.name).Nodup) {tcols : List String}
    {f : FieldDecl τ} (hf : f ∈ D.fields) (hopt : f.optional = true) :
    f.name ∈ alignColOrder D tcols ↔ f.name ∈ tcols := by
  constructor
  · intro hm
    unfold alignColOrder at hm
    have hdecl : f.name ∈ (D.fields.filter
        (fun g => !g.optional || tcols.contains g.name)).map FieldDecl.name →
        f.name ∈ tcols := by
      intro hd
      simp only [List.mem_map, List.mem_filter] at hd
      obtain ⟨g, ⟨hg, hp⟩, hgname⟩ := hd
      have hgf : g = f := List.inj_on_of_nodup_map hnd hg hf hgname
      rw [hgf] at hp
      rcases Bool.or_eq_true_iff.mp hp with hno | hcont
      · rw [hopt] at hno; simp at hno
      · exact List.elem_iff.mp hcont
    by_cases ha : D.allowExtra
    · rw [if_pos ha] at hm
      rcases List.mem_append.mp hm with hd | he
      · exact hdecl hd
      · exact List.mem_of_mem_filter he
    · rw [if_neg ha] at hm
      exact hdecl hm
  · intro hm
    exact optional_present_mem_alignColOrder hf hm

theorem alignColOrder_idem {D : SchemaDecl τ}
    (hnd : (D.fields.map FieldDecl.name).Nodup) (tcols : List String) :
    alignColOrder D (alignColOrder D tcols) = alignColOrder D tcols := by
  set ord := alignColOrder D tcols with hord
  have hP : D.fields.filter (fun f => !f.optional || ord.contains f.name)
      = D.fields.filter (fun f => !f.optional || tcols.contains f.name) := by
    apply List.filter_congr
    intro f hf
    by_cases hopt : f.optional
    · simp only [hopt, Bool.not_true, Bool.false_or]
      have hiff : f.name ∈ alignColOrder D tcols ↔ f.name ∈ tcols :=
        optional_mem_alignColOrder_iff hnd hf hopt
      by_cases hmem : f.name ∈ tcols
      · have h1 : ord.contains f.name = true :=
          List.elem_iff.mpr (hord ▸ hiff.mpr hmem)
        have h2 : tcols.contains f.name = true := List.elem_iff.mpr hmem
        rw [h1, h2]
      · have h1 : ord.contains f.name = false := by
          by_contra hq
          rw [Bool.not_eq_false] at hq
          exact hmem (hiff.mp (hord ▸ List.elem_iff.mp hq))
        have h2 : tcols.contains f.name = false := by
          by_contra hq
          rw [Bool.not_eq_false] at hq
          exact hmem (List.elem_iff.mp hq)
        rw [h1, h2]
    · rw [Bool.not_eq_true] at hopt
      simp [hopt]
  unfold alignColOrder
  rw [hP]
  by_cases ha : D.allowExtra
  · rw [if_pos ha]
    have hordeq : ord = (D.fields.filter
        (fun f => !f.optional || tcols.contains f.name)).map FieldDecl.name
        ++ tcols.filter (fun c => !((D.fields.filter
          (fun f => !f.optional || tcols.contains f.name)).map
            FieldDecl.name).contains c) := by
      rw [hord]
      unfold alignColOrder
      rw [if_pos ha]
    rw [hordeq, List.filter_append]
    have e1 : ((D.fields.filter
        (fun f => !f.optional || tcols.contains f.name)).map FieldDecl.name).filter
          (fun c => !((D.fields.filter
            (fun f => !f.optional || tcols.contains f.name)).map
              FieldDecl.name).contains c) = [] := by
      apply List.filter_eq_nil_iff.mpr
      intro a ha2 hcon
      rw [Bool.not_eq_true'] at hcon
      have hc2 := List.elem_iff.mpr ha2
      have hcon2 : List.elem a ((D.fields.filter
          (fun f => !f.optional || tcols.contains f.name)).map
            FieldDecl.name) = false := hcon
      rw [hc2] at hcon2
      exact Bool.noConfusion hcon2
    have e2 : (tcols.filter (fun c => !((D.fields.filter
        (fun f => !f.optional || tcols.contains f.name)).map
          FieldDecl.name).contains c)).filter
          (fun c => !((D.fields.filter
            (fun f => !f.optional || tcols.contains f.name)).map
              FieldDecl.name).contains c)
        = tcols.filter (fun c => !((D.fields.filter
            (fun f => !f.optional || tcols.contains f.name)).map
              FieldDecl.name).contains c) := by
      apply List.filter_eq_self.mpr
      intro a ha2
      exact (List.mem_filter.mp ha2).2
    rw [e1, e2, List.nil_append]
  · rw [if_neg ha]
    rw [hord]
    unfold alignColOrder
    rw [if_neg ha]

theorem validateSchema_ok_iff [DecidableEq τ] (D : SchemaDecl τ)
    (R : RawSchema τ) :
    validateSchema D R = .ok () ↔
      disallowedExtraCols D R = [] ∧ missingReqCols D R = [] ∧
        mistypedCols D R = [] := by
  have hval : validateSchema D R = if disallowedExtraCols D R ≠ [] ∨
      missingReqCols D R ≠ [] ∨ mistypedCols D R ≠ [] then
        Except.error ⟨disallowedExtraCols D R, missingReqCols D R,
          mistypedCols D R⟩
      else Except.ok () := rfl
  rw [hval]
  split
  · rename_i h
    constructor
    · intro hh; exact Except.noConfusion hh
    · rintro ⟨h1, h2, h3⟩
      rcases h with h | h | h
      · exact absurd h1 h
      · exact absurd h2 h
      · exact absurd h3 h
  · rename_i h
    push_neg at h
    obtain ⟨h1, h2, h3⟩ := h
    simp [h1, h2, h3]

theorem validateSchema_error_eq [DecidableEq τ] {D : SchemaDecl τ}
    {R : RawSchema τ} {e : SVError τ} (h : validateSchema D R = .error e) :
    e = ⟨disallowedExtraCols D R, missingReqCols D R, mistypedCols D R⟩ := by
  have hval : validateSchema D R = if disallowedExtraCols D R ≠ [] ∨
      missingReqCols D R ≠ [] ∨ mistypedCols D R ≠ [] then
        Except.error ⟨disallowedExtraCols D R, missingReqCols D R,
          mistypedCols D R⟩
      else Except.ok () := rfl
  rw [hval] at h
  split at h
  · exact (Except.error.inj h).symm
  · exact Except.noConfusion h

theorem validateSchema_error_of [DecidableEq τ] (D : SchemaDecl τ)
    (R : RawSchema τ)
    (h : ¬(disallowedExtraCols D R = [] ∧ missingReqCols D R = [] ∧
      mistypedCols D R = [])) :
    validateSchema D R = .error
      ⟨disallowedExtraCols D R, missingReqCols D R, mistypedCols D R⟩ := by
  rcases hv : validateSchema D R with e | u
  · rw [validateSchema_error_eq hv]
  · cases u
    exact absurd ((validateSchema_ok_iff D R).mp hv) h

theorem mem_toDictS {d : List (String × Option ν)} {k : String} {v : ν} :
    (k, v) ∈ toDictS d ↔ (k, some v) ∈ d := by
  unfold toDictS
  rw [List.mem_filterMap]
  constructor
  · rintro ⟨⟨a, b⟩, hab, heq⟩
    rcases b with _ | w
    · simp at heq
    · simp only [Option.map_some'] at heq
      injection heq with heq
      injection heq with h1 h2
      subst h1; subst h2
      exact hab
  · intro h
    exact ⟨(k, some v), h, rfl⟩

theorem align_table_cases [DecidableEq τ] {B : Backend τ ν}
    {D : SchemaDecl τ} {T t : RawTable ν} (h : align B D T = .table t) :
    disallowedExtraCols D (rawTableSchema B T) = [] ∧
    missingReqCols D (rawTableSchema B T) = [] ∧
    ∃ t1, reorderRawTable T (alignColOrder D (rawTableCols B T)) = some t1 ∧
      castRawTable B t1 (mistypedCols D (rawTableSchema B T)) = some t := by
  simp only [align] at h
  split at h
  · exact AlignOut.noConfusion h
  · rename_i mist hstep
    have hlists : disallowedExtraCols D (rawTableSchema B T) = [] ∧
        missingReqCols D (rawTableSchema B T) = [] ∧
        mist = mistypedCols D (rawTableSchema B T) := by
      split at hstep
      · rename_i u hvok
        cases u
        have := (validateSchema_ok_iff D (rawTableSchema B T)).mp hvok
        have hm := (Except.ok.inj hstep)
        exact ⟨this.1, this.2.1, by rw [← hm, this.2.2]⟩
      · rename_i e hverr
        have he := validateSchema_error_eq hverr
        split at hstep
        · exact Except.noConfusion hstep
        · split at hstep
          · rename_i hcond hmty
            rw [he] at hcond
            push_neg at hcond
            have hm := Except.ok.inj hstep
            refine ⟨?_, ?_, ?_⟩
            · exact hcond.2
            · exact hcond.1
            · rw [← hm, he]
          · exact Except.noConfusion hstep
    refine ⟨hlists.1, hlists.2.1, ?_⟩
    split at h
    · exact AlignOut.noConfusion h
    · rename_i t1 hre
      refine ⟨t1, hre, ?_⟩
      split at h
      · rename_i hne
        split at h
        · rename_i t2 hc2
          rw [← hlists.2.2, hc2]
          rw [AlignOut.table.inj h]
        · exact AlignOut.noConfusion h
      · rename_i hne
        push_neg at hne
        rw [← hlists.2.2, hne]
        rw [AlignOut.table.inj h]
        rfl

theorem alignColOrder_eq_spec_of_requiredFirst {D : SchemaDecl τ}
    (hrf : requiredFirst D) (tcols : List String) :
    alignColOrder D tcols = specAlignOrder D tcols := by
  have hdecl : (D.fields.filter
      (fun f => !f.optional || tcols.contains f.name)).map FieldDecl.name
      = requiredColumnsD D
        ++ (optionalColumnsD D).filter (fun c => tcols.contains c) := by
    conv_lhs => rw [hrf]
    rw [List.filter_append, List.map_append]
    congr 1
    · have hself : (D.fields.filter (fun f => !f.optional)).filter
          (fun f => !f.optional || tcols.contains f.name)
          = D.fields.filter (fun f => !f.optional) := by
        apply List.filter_eq_self.mpr
        intro f hf
        have := (List.mem_filter.mp hf).2
        simp [this]
      rw [hself]
      rfl
    · have hcongr : (D.fields.filter (fun f => f.optional)).filter
          (fun f => !f.optional || tcols.contains f.name)
          = (D.fields.filter (fun f => f.optional)).filter
            (fun f => tcols.contains f.name) := by
        apply List.filter_congr
        intro f hf
        have := (List.mem_filter.mp hf).2
        simp [this]
      rw [hcongr]
      unfold optionalColumnsD
      rw [List.filter_map FieldDecl.name (D.fields.filter (fun f => f.optional))]
      rfl
  unfold alignColOrder specAlignOrder
  rw [hdecl]

/-! ## Claim theorems -/

/-- C1: `_validate_schema` computes all three category lists
(disallowed-extra, missing-required, mistyped) and raises a single
aggregated `SchemaValidationError` carrying all three iff at least one is
non-empty; when all three are empty it returns without raising. -/
theorem C1_validateSchema_aggregate [DecidableEq τ] (D : SchemaDecl τ)
    (R : RawSchema τ) :
    (validateSchema D R = .ok () ↔
      disallowedExtraCols D R = [] ∧ missingReqCols D R = [] ∧
        mistypedCols D R = []) ∧
    (¬(disallowedExtraCols D R = [] ∧ missingReqCols D R = [] ∧
        mistypedCols D R = []) →
      validateSchema D R = .error ⟨disallowedExtraCols D R,
        missingReqCols D R, mistypedCols D R⟩) :=
  ⟨validateSchema_ok_iff D R, validateSchema_error_of D R⟩

/-- Witness for C1: a schema declaration with one required column `a`,
validated against an empty raw schema, raises the aggregated error whose
missing-required list is `["a"]`. -/
theorem C1_validateSchema_aggregate_witness :
    validateSchema ⟨[⟨"a", "A", false⟩], true⟩ ([] : RawSchema String)
      = .error ⟨[], ["a"], []⟩ :=
  (C1_validateSchema_aggregate ⟨[⟨"a", "A", false⟩], true⟩ []).2 (by decide)

/-- C2 counterexample: with the base `_validate_table`, a table whose
derived raw schema fails validation makes `validate` raise the plain
`SchemaValidationError` carrying the aggregate — not the distinct
`TableValidationError` — at the concrete input of a one-column table
whose only column is mistyped. -/
theorem C2_tablePath_raises_plain_schema_error :
    validateTablePath strBackend ⟨[⟨"a", "A", false⟩], true⟩ [("a", "B")]
      = .schemaError ⟨[], [], [("a", "A", "B")]⟩ ∧
    validateTablePath strBackend ⟨[⟨"a", "A", false⟩], true⟩ [("a", "B")]
      ≠ .tableError := by decide

/-- C2 amended: on the table path of `validate`, a
`SchemaValidationError` raised while validating the table's derived raw
schema propagates unchanged (same class, same aggregate);
`TableValidationError("Table validation failed")`, which carries no
aggregate, is raised only when the underlying table validation raises a
non-validation exception. -/
theorem C2_tablePath_error_surface [DecidableEq τ] (B : Backend τ ν)
    (D : SchemaDecl τ) (T : RawTable ν) :
    (∀ e, validateTable B D T = .error e →
      validateTablePath B D T = .schemaError e) ∧
    validateTableBranch (TblValOutcome.otherExc : TblValOutcome τ)
      = .tableError := by
  constructor
  · intro e he
    unfold validateTablePath tblValOutcome
    rw [he]
    rfl
  · rfl

/-- Witness for C2 amended: a disallowed extra column on the table path
surfaces as the plain aggregated schema error. -/
theorem C2_tablePath_error_surface_witness :
    validateTablePath strBackend ⟨[⟨"b", "A", false⟩], false⟩
      [("b", "A"), ("x", "C")] = .schemaError ⟨["x"], [], []⟩ :=
  (C2_tablePath_error_surface strBackend ⟨[⟨"b", "A", false⟩], false⟩
    [("b", "A"), ("x", "C")]).1 ⟨["x"], [], []⟩ (by decide)

/-- C4: evaluating the code at the failing input. `fields.Column` (the
class `base.py` imports) constructed with `nullable=True` stores and
reports `Nullability.SOME`, not `ALL` as the claim states; with
`nullable=False` it stores `NONE`; the parallel `columns.Column` setter
maps `True` to `ALL` as the claim describes. -/
theorem C4_fields_bool_true_nullable_is_SOME :
    mkColumn "int" (none : Option String) (.ofBool true) none true
      = .ok ⟨"int", none, none, true, some .SOME, true⟩ ∧
    (⟨"int", none, none, true, some .SOME, true⟩ :
      ColumnState String String).nullable = .SOME ∧
    (⟨"int", none, none, true, some .SOME, true⟩ :
      ColumnState String String).nullable ≠ .ALL ∧
    fieldsSetNullable (.ofBool true) = .ok (some .SOME) ∧
    fieldsSetNullable (.ofBool false) = .ok (some .NONE) ∧
    columnsSetNullable (.ofBool true) = .ok (some .ALL) := by decide

/-- C8 counterexample: after constructing a `fields.Column`, assigning to
its `dtype` attribute succeeds and mutates the column (plain attribute,
no freeze guard), instead of raising as the claim states for the type. -/
theorem C8_dtype_mutation_succeeds :
    mkColumn "int" (none : Option String) .unset none false
      = .ok ⟨"int", none, none, false, none, true⟩ ∧
    setDtypeAfterInit (⟨"int", none, none, false, none, true⟩ :
      ColumnState String String) "str"
      = .changed ⟨"str", none, none, false, none, true⟩ ∧
    setDtypeAfterInit (⟨"int", none, none, false, none, true⟩ :
      ColumnState String String) "str" ≠ .raised := by decide

/-- C8 amended: after construction the nullability and the
required/optional flag are fixed — assigning either raises — but the
`dtype` attribute is a plain attribute whose assignment succeeds and
mutates the column. -/
theorem C8_mutation_after_init (dtype : τ) (default : Option ν)
    (nb : NullableArg) (name : Option String) (opt : Bool)
    (c : ColumnState τ ν) (h : mkColumn dtype default nb name opt = .ok c) :
    (∀ v, setNullableAfterInit c v = .raised) ∧
    (∀ b, setOptionalAfterInit c b = .raised) ∧
    (∀ t, setDtypeAfterInit c t = .changed { c with dtype := t }) := by
  have hfrozen : c.frozen = true := by
    unfold mkColumn at h
    split at h
    · exact Except.noConfusion h
    · split at h
      · exact Except.noConfusion h
      · rw [← Except.ok.inj h]
  refine ⟨?_, ?_, ?_⟩
  · intro v
    unfold setNullableAfterInit
    rw [if_pos hfrozen]
  · intro b
    rfl
  · intro t
    rfl

/-- Witness for C8 amended: on a concrete constructed column, assigning
nullability raises. -/
theorem C8_mutation_after_init_witness :
    setNullableAfterInit (⟨"int", none, none, false, none, true⟩ :
      ColumnState String String) (.ofBool true) = .raised :=
  (C8_mutation_after_init "int" none .unset none false
    ⟨"int", none, none, false, none, true⟩ (by decide)).1 (.ofBool true)

/-- C9 counterexample: with extras allowed, construction with an extra
keyword whose value is `None` succeeds and stores the key on the
instance, but the key does not appear in the dictionary view (`to_dict`
filters out `None`-valued attributes), contradicting the claim that every
stored extra key appears in `to_dict`. -/
theorem C9_none_extra_not_in_dict_view :
    newInit true [] [("x", (none : Option String))]
      = .ok [("x", (none : Option String))] ∧
    keysS [("x", (none : Option String))] = [] := by decide

/-- C9 amended: construction with extra keyword arguments raises a
`SchemaValidationError` naming exactly the extra keys when
`allow_extra_columns` is false; when extras are allowed and the dataclass
init succeeds, construction succeeds with every extra key stored on the
instance, and an extra key appears in `to_dict`'s keys whenever its value
is not `None`. -/
theorem C9_newInit_extra_columns [DecidableEq ν] (allowExtra : Bool)
    (flds : List (FieldSpec ν)) (kwargs : List (String × Option ν)) :
    (allowExtra = false →
      kwargs.filter (fun kv => !(flds.map FieldSpec.name).contains kv.1)
        ≠ [] →
      newInit allowExtra flds kwargs = .svError
        ((kwargs.filter (fun kv =>
          !(flds.map FieldSpec.name).contains kv.1)).map Prod.fst)) ∧
    (allowExtra = true → ∀ d0, oldInit (kwargs.filter
        (fun kv => (flds.map FieldSpec.name).contains kv.1)) flds
          = some d0 →
      newInit allowExtra flds kwargs = .ok (d0 ++ kwargs.filter
        (fun kv => !(flds.map FieldSpec.name).contains kv.1))) ∧
    (∀ d, newInit allowExtra flds kwargs = .ok d →
      ∀ kv ∈ kwargs.filter (fun kv =>
          !(flds.map FieldSpec.name).contains kv.1),
        kv ∈ d ∧ (∀ x, kv.2 = some x → kv.1 ∈ keysS d)) := by
  refine ⟨?_, ?_, ?_⟩
  · intro hna hne
    unfold newInit
    rw [if_pos ⟨by simp [hna], hne⟩]
  · intro hal d0 hd0
    unfold newInit
    rw [if_neg (by simp [hal]), hd0]
  · intro d hd kv hkv
    simp only [newInit] at hd
    split at hd
    · exact InitOutcome.noConfusion hd
    · split at hd
      · exact InitOutcome.noConfusion hd
      · rename_i d1 hd1
        have hdd : d = d1 ++ kwargs.filter (fun kv =>
            !(flds.map FieldSpec.name).contains kv.1) :=
          (InitOutcome.ok.inj hd).symm
        subst hdd
        refine ⟨List.mem_append_right _ hkv, ?_⟩
        intro x hx
        have hmem : (kv.1, some x) ∈ d1 ++ kwargs.filter (fun kv =>
            !(flds.map FieldSpec.name).contains kv.1) := by
          rw [← hx]
          exact List.mem_append_right _ hkv
        exact List.mem_map_of_mem Prod.fst (mem_toDictS.mpr hmem)

/-- Witness for C9 amended: a concrete construction with a disallowed
extra key raises the error naming it. -/
theorem C9_newInit_extra_columns_witness :
    newInit false [⟨"a", none⟩] [("a", some "v"), ("x", some "w")]
      = .svError ["x"] :=
  (C9_newInit_extra_columns false [⟨"a", none⟩]
    [("a", some "v"), ("x", some "w")]).1 rfl (by decide)

/-- C10: `to_dict` contains exactly the attributes whose value is not
`None` (membership in the dictionary view is equivalent to a non-`None`
attribute), `keys` is derived from `to_dict`, and a `None`-valued entry
is indistinguishable in the dictionary view from an absent one. -/
theorem C10_toDict_spec (d : List (String × Option ν)) (k : String)
    (v : ν) :
    ((k, v) ∈ toDictS d ↔ (k, some v) ∈ d) ∧
    keysS d = (toDictS d).map Prod.fst ∧
    (∀ d1 d2 : List (String × Option ν),
      toDictS (d1 ++ (k, (none : Option ν)) :: d2) = toDictS (d1 ++ d2)) := by
  refine ⟨mem_toDictS, rfl, ?_⟩
  intro d1 d2
  unfold toDictS
  rw [List.filterMap_append, List.filterMap_append,
    List.filterMap_cons_none rfl]

/-- C3 counterexample: for a declaration listing an optional field `x`
before a required field `y`, `align` keeps the declared columns in
declaration order (`x` then `y`), not required-first (`y` then `x`) as
the claim's target order prescribes. -/
theorem C3_align_order_counterexample :
    align strBackend ⟨[⟨"x", "A", true⟩, ⟨"y", "B", false⟩], false⟩
      [("x", "A"), ("y", "B")] = .table [("x", "A"), ("y", "B")] ∧
    specAlignOrder ⟨[⟨"x", "A", true⟩, ⟨"y", "B", false⟩], false⟩
      ["x", "y"] = ["y", "x"] ∧
    ([("x", "A"), ("y", "B")] : RawTable String).map Prod.fst
      ≠ specAlignOrder ⟨[⟨"x", "A", true⟩, ⟨"y", "B", false⟩], false⟩
        ["x", "y"] := by decide

/-- C3 amended: the aligned table's column order is exactly
`alignColOrder`: every declared field that is required or present in the
input, in declaration order, followed (when extras are allowed) by the
remaining input columns in original relative order; this equals the
claimed required-then-optional-present-then-extras order whenever the
declaration lists all required fields before all optional ones. -/
theorem C3_align_col_order [DecidableEq τ] (B : Backend τ ν)
    (D : SchemaDecl τ) (T : RawTable ν) (t : RawTable ν)
    (h : align B D T = .table t) :
    t.map Prod.fst = alignColOrder D (T.map Prod.fst) ∧
    (requiredFirst D →
      alignColOrder D (T.map Prod.fst) = specAlignOrder D (T.map Prod.fst)) := by
  obtain ⟨_, _, t1, hre, hct⟩ := align_table_cases h
  constructor
  · rw [castTable_cols hct, reorder_cols hre, rawTableCols_eq]
  · intro hrf
    exact alignColOrder_eq_spec_of_requiredFirst hrf _

/-- Witness for C3 amended: aligning a concrete mixed-order table yields
exactly the computed target order. -/
theorem C3_align_col_order_witness :
    ([("a", "A"), ("b", "B"), ("c", "C")] : RawTable String).map Prod.fst
      = alignColOrder ⟨[⟨"a", "A", false⟩, ⟨"b", "B", true⟩], true⟩
        (([("b", "B"), ("a", "A"), ("c", "C")] : RawTable String).map
          Prod.fst) ∧
    (requiredFirst (⟨[⟨"a", "A", false⟩, ⟨"b", "B", true⟩], true⟩ :
        SchemaDecl String) →
      alignColOrder ⟨[⟨"a", "A", false⟩, ⟨"b", "B", true⟩], true⟩
          (([("b", "B"), ("a", "A"), ("c", "C")] : RawTable String).map
            Prod.fst)
        = specAlignOrder ⟨[⟨"a", "A", false⟩, ⟨"b", "B", true⟩], true⟩
          (([("b", "B"), ("a", "A"), ("c", "C")] : RawTable String).map
            Prod.fst)) :=
  C3_align_col_order strBackend ⟨[⟨"a", "A", false⟩, ⟨"b", "B", true⟩], true⟩
    [("b", "B"), ("a", "A"), ("c", "C")] [("a", "A"), ("b", "B"), ("c", "C")]
    (by decide)

/-- C5: when validation of the table reports a missing-required or
disallowed-extra column, `align` raises a validation error carrying
exactly those two lists (the same error surface as validation), without
producing any table; a table is only ever produced when the validation
failure, if any, consists solely of mistyped columns. -/
theorem C5_align_rejects_missing_and_extra [DecidableEq τ]
    (B : Backend τ ν) (D : SchemaDecl τ) (T : RawTable ν) :
    ((disallowedExtraCols D (rawTableSchema B T) ≠ [] ∨
        missingReqCols D (rawTableSchema B T) ≠ []) →
      align B D T = .schemaError ⟨disallowedExtraCols D (rawTableSchema B T),
        missingReqCols D (rawTableSchema B T), []⟩) ∧
    (∀ t, align B D T = .table t →
      disallowedExtraCols D (rawTableSchema B T) = [] ∧
      missingReqCols D (rawTableSchema B T) = []) := by
  constructor
  · intro hbad
    have hv : validateTable B D T = .error
        ⟨disallowedExtraCols D (rawTableSchema B T),
          missingReqCols D (rawTableSchema B T),
          mistypedCols D (rawTableSchema B T)⟩ :=
      validateSchema_error_of D (rawTableSchema B T) (by tauto)
    simp only [align]
    rw [hv]
    dsimp only
    rw [if_pos (by tauto)]
  · intro t h
    obtain ⟨hdis, hmiss, _⟩ := align_table_cases h
    exact ⟨hdis, hmiss⟩

/-- Witness for C5: aligning an empty table against a declaration with a
required column raises the error identifying the missing column. -/
theorem C5_align_rejects_witness :
    align strBackend ⟨[⟨"a", "A", false⟩], true⟩ ([] : RawTable String)
      = .schemaError ⟨[], ["a"], []⟩ :=
  (C5_align_rejects_missing_and_extra strBackend
    ⟨[⟨"a", "A", false⟩], true⟩ []).1 (Or.inr (by decide))

/-- C6: when validation reports only mistyped columns and the backend's
cast fails, `align` raises a validation error re-reporting the original,
full mistyped-columns list, and the caller receives no (partially-cast)
table. -/
theorem C6_align_cast_failure [DecidableEq τ] (B : Backend τ ν)
    (D : SchemaDecl τ) (T : RawTable ν)
    (hdis : disallowedExtraCols D (rawTableSchema B T) = [])
    (hmiss : missingReqCols D (rawTableSchema B T) = [])
    (hmist : mistypedCols D (rawTableSchema B T) ≠ [])
    (hfail : ∀ t1, reorderRawTable T (alignColOrder D (rawTableCols B T))
        = some t1 →
      castRawTable B t1 (mistypedCols D (rawTableSchema B T)) = none) :
    align B D T = .schemaError ⟨[], [],
      mistypedCols D (rawTableSchema B T)⟩ := by
  have hv : validateTable B D T = .error
      ⟨disallowedExtraCols D (rawTableSchema B T),
        missingReqCols D (rawTableSchema B T),
        mistypedCols D (rawTableSchema B T)⟩ :=
    validateSchema_error_of D (rawTableSchema B T) (by tauto)
  have hpres : ∀ c ∈ alignColOrder D (rawTableCols B T),
      c ∈ T.map Prod.fst := by
    rw [rawTableCols_eq]
    apply alignColOrder_names_present
    intro c hc
    have hmem := (missingReqCols_eq_nil_iff D (rawTableSchema B T)).mp
      hmiss c hc
    rwa [show rawSchemaCols (rawTableSchema B T) = T.map Prod.fst from
      rawTableCols_eq B T] at hmem
  obtain ⟨t1, ht1⟩ := reorder_isSome hpres
  simp only [align]
  rw [hv]
  dsimp only
  rw [if_neg (by simp [hmiss, hdis]), if_pos hmist]
  dsimp only
  rw [ht1]
  dsimp only
  rw [if_pos hmist, hfail t1 ht1]

/-- Witness for C6: with a backend whose casts always fail, aligning a
table whose only column is mistyped raises the error re-reporting the
mistyped list. -/
theorem C6_align_cast_failure_witness :
    align failBackend ⟨[⟨"a", "A", false⟩], true⟩ [("a", "B")]
      = .schemaError ⟨[], [], [("a", "A", "B")]⟩ :=
  C6_align_cast_failure failBackend ⟨[⟨"a", "A", false⟩], true⟩ [("a", "B")]
    (by decide) (by decide) (by decide) (by
      intro t1 h
      have heq : reorderRawTable [("a", "B")]
          (alignColOrder ⟨[⟨"a", "A", false⟩], true⟩
            (rawTableCols failBackend [("a", "B")])) = some [("a", "B")] := by
        decide
      rw [heq] at h
      rw [← Option.some.inj h]
      decide)

/-- C7: alignment is idempotent.  For a declaration with distinct field
names and a backend whose cast, when it succeeds, produces exactly the
requested raw type (the adapter contract; reorder is a pure projection by
construction), whenever `align` succeeds and produces a table, aligning
that table again returns it unchanged. -/
theorem C7_align_idempotent [DecidableEq τ] (B : Backend τ ν)
    (D : SchemaDecl τ) (T : RawTable ν)
    (hnd : (D.fields.map FieldDecl.name).Nodup)
    (hcast : ∀ v ty v', B.castVal v ty = some v' → B.typeOf v' = ty)
    (t : RawTable ν) (h : align B D T = .table t) :
    align B D t = .table t := by
  obtain ⟨hdis, hmiss, t1, hre, hct⟩ := align_table_cases h
  have ht1cols : t1.map Prod.fst = alignColOrder D (T.map Prod.fst) := by
    rw [reorder_cols hre, rawTableCols_eq]
  have htcols : t.map Prod.fst = alignColOrder D (T.map Prod.fst) := by
    rw [castTable_cols hct, ht1cols]
  have hmistnames : ∀ x ∈ mistypedCols D (rawTableSchema B T),
      x.1 ∈ columnsD D := by
    intro x hx
    rcases x with ⟨c, w, g⟩
    exact (mem_mistypedCols hx).1
  have hcount : ∀ x ∈ mistypedCols D (rawTableSchema B T),
      (t1.map Prod.fst).count x.1 ≤ 1 := by
    intro x hx
    rw [ht1cols]
    exact alignColOrder_count_le_one hnd (hmistnames x hx)
  have hconst : Consistent t :=
    castTable_consistent hcount (reorder_consistent hre) hct
  have hmnodup : ((mistypedCols D (rawTableSchema B T)).map
      (fun x => x.1)).Nodup :=
    (mistypedCols_names_sublist D (rawTableSchema B T)).nodup
      (columnsD_nodup hnd)
  have htype : ∀ c ∈ columnsD D, ∀ v, lookupCol t c = some v →
      ∀ want, columnTypeD D c = some want → B.typeOf v = want := by
    intro c hc v hv want hwant
    by_cases hcm : c ∈ (mistypedCols D (rawTableSchema B T)).map
        (fun x => x.1)
    · obtain ⟨⟨c', w, g⟩, hxm, hcc⟩ := List.mem_map.mp hcm
      simp only at hcc
      subst hcc
      obtain ⟨v0, v', hcv, hlk⟩ := castTable_lookup_mem hct hmnodup hxm
      rw [hv] at hlk
      have hvv : v = v' := Option.some.inj hlk
      have hmm := mem_mistypedCols hxm
      have hww : want = w := by
        rw [hmm.2.2.1] at hwant
        exact (Option.some.inj hwant).symm
      rw [hvv, hcast v0 w v' hcv, hww]
    · have hnotm : ∀ x ∈ mistypedCols D (rawTableSchema B T), x.1 ≠ c := by
        intro x hx hxc
        exact hcm (hxc ▸ List.mem_map_of_mem _ hx)
      have hl1 : lookupCol t1 c = some v := by
        rw [← castTable_lookup_not_mem hct hnotm]
        exact hv
      have hmemT : lookupCol T c = some v := by
        have hm := reorder_mem hre (c, v) (lookupCol_eq_some_mem hl1)
        simpa using hm
      have hgot : rawSchemaColType (rawTableSchema B T) c
          = some (B.typeOf v) := by
        rw [rawSchemaColType_tableSchema, hmemT]
        rfl
      by_cases hne : want = B.typeOf v
      · exact hne.symm
      · exfalso
        have hmem2 : (c, want, B.typeOf v) ∈
            mistypedCols D (rawTableSchema B T) :=
          mem_mistypedCols_intro hc hgot hwant hne
        exact hcm (List.mem_map_of_mem _ hmem2)
  have hok : validateTable B D t = .ok () := by
    apply (validateSchema_ok_iff D (rawTableSchema B t)).mpr
    refine ⟨?_, ?_, ?_⟩
    · apply (disallowedExtraCols_eq_nil_iff _ _).mpr
      by_cases ha : D.allowExtra
      · exact Or.inl ha
      · right
        intro c hcc
        rw [show rawSchemaCols (rawTableSchema B t) = t.map Prod.fst from
          rawTableCols_eq B t, htcols] at hcc
        rcases alignColOrder_mem_cases hcc with ⟨f, hf, rfl⟩ | hmemT2
        · exact mem_columnsD_iff.mpr ⟨f, hf, rfl⟩
        · rcases (disallowedExtraCols_eq_nil_iff D
              (rawTableSchema B T)).mp hdis with hTa | hsub
          · exact absurd hTa (by simp [ha])
          · apply hsub
            rw [show rawSchemaCols (rawTableSchema B T) = T.map Prod.fst from
              rawTableCols_eq B T]
            exact hmemT2
    · apply (missingReqCols_eq_nil_iff _ _).mpr
      intro c hc
      rw [show rawSchemaCols (rawTableSchema B t) = t.map Prod.fst from
        rawTableCols_eq B t, htcols]
      exact required_mem_alignColOrder _ hc
    · apply (mistypedCols_eq_nil_iff _ _).mpr
      intro c hc got want hgot hwant
      rw [rawSchemaColType_tableSchema] at hgot
      rcases hl : lookupCol t c with _ | v
      · rw [hl] at hgot
        simp at hgot
      · rw [hl] at hgot
        simp only [Option.map_some'] at hgot
        have hg2 := Option.some.inj hgot
        have hty := htype c hc v hl want hwant
        rw [← hg2, hty]
  simp only [align]
  rw [hok]
  dsimp only
  have hordt : alignColOrder D (rawTableCols B t) = t.map Prod.fst := by
    rw [rawTableCols_eq, htcols, alignColOrder_idem hnd, ← htcols]
  rw [hordt, consistent_reorder_self hconst]
  dsimp only
  rw [if_neg (by simp)]

/-- Witness for C7: a concrete aligned table is a fixed point of `align`
(the input table needs both a reorder and a cast on its first pass). -/
theorem C7_align_idempotent_witness :
    align strBackend ⟨[⟨"a", "A", false⟩, ⟨"b", "B", true⟩], true⟩
      [("a", "A"), ("b", "B")] = .table [("a", "A"), ("b", "B")] :=
  C7_align_idempotent strBackend ⟨[⟨"a", "A", false⟩, ⟨"b", "B", true⟩], true⟩
    [("b", "B"), ("a", "X")] (by decide)
    (fun v ty v' hv => by
      have : ty = v' := Option.some.inj hv
      rw [← this]
      rfl)
    [("a", "A"), ("b", "B")] (by decide)

end FlexibleSchema
